import Mathlib

/-!
Verification development for the `ctxlog` Go package: a structured,
context-propagated logging and tracing facility built on an immutable
copy-on-write tag-context model.

The definitions below are a shallow embedding of the Go source:
  * `ctxlog.go`   — the current iteration: `LoggingContext`, `With`,
    `WithAll`, `WithValue`, `Clone`, `ToJSON`, `Trace`, `logf`.
  * `sinks.go`    — the sink registry, `UseSink`, and `ConsoleSink.Log`.
  * an earlier iteration of the same package (here suffixed `0`), whose
    `With` writes through the parent's shared tags map instead of
    deep-copying; a small heap model captures that aliasing.

Go's `map[string][]interface{}` is modelled as an association list with
distinct keys; tag values (`interface{}`) are modelled by the `Value`
inductive (strings and integers, which is what the package actually
stores).  Go map iteration order is unspecified, so no theorem relies on
the entry order of such a map — only on key lookup.  Wall-clock times are
abstracted to an integer clock, and the fallible `uuid.NewRandom` to an
`Except` argument.
-/

set_option autoImplicit false

namespace Ctxlog

/-- A tag value: Go's `interface{}` restricted to the shapes the package
actually stores (strings such as span ids and names, integers such as
unix timestamps and durations). -/
inductive Value where
  | str (s : String)
  | int (n : Int)
deriving DecidableEq, Repr, Inhabited

/-- `Tag` from ctxlog.go: one structured key/value pair, with the
`Override` flag deciding replace-vs-accumulate semantics. -/
structure Tag where
  K : String
  V : Value
  Override : Bool
deriving DecidableEq, Repr

/-- The contents of Go's `map[string][]interface{}`: an association list
from tag name to the accumulated value sequence.  A well-formed map has
distinct keys (`TagMap.keys …|>.Nodup`), as every real Go map does. -/
abbrev TagMap := List (String × List Value)

/-- Lookup in the tags map (`m[k]` with its `ok` flag as `Option`). -/
def TagMap.find : TagMap → String → Option (List Value)
  | [], _ => none
  | (k', vs) :: rest, k => if k' = k then some vs else TagMap.find rest k

/-- Go map assignment `m[k] = vs`: replace the entry if the key is
present, otherwise add a new entry. -/
def TagMap.insert : TagMap → String → List Value → TagMap
  | [], k, vs => [(k, vs)]
  | (k', vs') :: rest, k, vs =>
    if k' = k then (k, vs) :: rest else (k', vs') :: TagMap.insert rest k vs

/-- The key set of the tags map. -/
def TagMap.keys : TagMap → List String
  | [] => []
  | (k, _) :: rest => k :: TagMap.keys rest

/-- The ambient `context.Context` beneath a `LoggingContext`:
`context.Background()`, a `context.WithCancel` node (identified by a
number so that cancellation can be queried), or a `context.WithValue`
node. -/
inductive BaseCtx where
  | background
  | cancelCtx (id : Nat) (parent : BaseCtx)
  | valueCtx (k : String) (v : Value) (parent : BaseCtx)
deriving DecidableEq, Repr

/-- `Err()` of an ambient context, given the set of cancel ids whose
cancel function has been called: a cancellable node reports an error
once it or an ancestor is cancelled; `Background` never does. -/
def BaseCtx.errSet (canceled : List Nat) : BaseCtx → Bool
  | .background => false
  | .cancelCtx id p => decide (id ∈ canceled) || BaseCtx.errSet canceled p
  | .valueCtx _ _ p => BaseCtx.errSet canceled p

/-- `LoggingContext` from ctxlog.go: an embedded ambient context plus the
owned tag snapshot (`tags` map and first-seen `order`). -/
structure LoggingContext where
  base : BaseCtx
  tags : TagMap
  order : List String
deriving DecidableEq, Repr

/-- A `context.Context` value as the package sees it: either a plain
ambient context or a `LoggingContext`. -/
inductive Ctx where
  | plain (b : BaseCtx)
  | logging (lc : LoggingContext)
deriving DecidableEq, Repr

/-- The type assertion `ctx.(LoggingContext)` for contexts known to be
logging contexts (every `With`/`WithAll` result is one); a plain context
corresponds to the empty tag snapshot the code falls back to. -/
def Ctx.getLog : Ctx → LoggingContext
  | .plain b => { base := b, tags := [], order := [] }
  | .logging lc => lc

/-- The tags visible through a context. -/
def Ctx.tagsOf (c : Ctx) : TagMap := c.getLog.tags

/-- The tag insertion order visible through a context. -/
def Ctx.orderOf (c : Ctx) : List String := c.getLog.order

/-- `Err()` on a context: a `LoggingContext` delegates to its embedded
ambient context (Go method promotion). -/
def Ctx.errSet (canceled : List Nat) : Ctx → Bool
  | .plain b => b.errSet canceled
  | .logging lc => lc.base.errSet canceled

/-- The body of WithAll's write loop for one tag: record the key in
`order` on first sight, then either override (replace with a singleton)
or accumulate (append to the value sequence). -/
def applyTag (r : TagMap × List String) (x : Tag) : TagMap × List String :=
  let ord := if (TagMap.find r.1 x.K).isSome then r.2 else r.2 ++ [x.K]
  let m :=
    if x.Override then TagMap.insert r.1 x.K [x.V]
    else TagMap.insert r.1 x.K ((TagMap.find r.1 x.K).getD [] ++ [x.V])
  (m, ord)

/-- WithAll's write loop over all tags, in argument order. -/
def applyTags (m : TagMap) (ord : List String) (tags : List Tag) : TagMap × List String :=
  tags.foldl applyTag (m, ord)

/-- `WithAll` from ctxlog.go: deep-copy the parent's `tags` and `order`
(or start empty for a non-logging context), then apply the writes.  The
returned context is a fresh value; the copy is modelled by the writes
acting on the copied snapshot only. -/
def WithAll (ctx : Ctx) (tags : List Tag) : Ctx :=
  match ctx with
  | .logging lc =>
    let p := applyTags lc.tags lc.order tags
    .logging { base := lc.base, tags := p.1, order := p.2 }
  | .plain b =>
    let p := applyTags [] [] tags
    .logging { base := b, tags := p.1, order := p.2 }

/-- `With` from ctxlog.go: a single accumulate write via `WithAll`. -/
def With (ctx : Ctx) (k : String) (v : Value) : Ctx :=
  WithAll ctx [{ K := k, V := v, Override := false }]

/-- `WithValue` from ctxlog.go: wrap the ambient part of the context with
`context.WithValue`, preserving the tag snapshot unchanged. -/
def WithValue (parent : Ctx) (k : String) (v : Value) : Ctx :=
  match parent with
  | .logging lc => .logging { lc with base := .valueCtx k v lc.base }
  | .plain b => .logging { base := .valueCtx k v b, tags := [], order := [] }

/-- `Clone` from ctxlog.go: copy the tag snapshot but replace the ambient
base with a fresh `context.Background()`. -/
def Clone (source : Ctx) : Ctx :=
  match source with
  | .logging lc => .logging { base := .background, tags := lc.tags, order := lc.order }
  | .plain _ => .logging { base := .background, tags := [], order := [] }

/-- A JSON-ish payload value: the single value of a once-written tag, or
the full ordered list of an accumulated one. -/
inductive JVal where
  | scalar (v : Value)
  | list (vs : List Value)
deriving DecidableEq, Repr

/-- ToJSON's single-item special case: a one-element value sequence is
exposed as the bare value, anything else as the full list. -/
def collapse (vs : List Value) : JVal :=
  if vs.length = 1 then .scalar (vs.headD (.str "")) else .list vs

/-- Lookup in an exported payload map. -/
def jfind : List (String × JVal) → String → Option JVal
  | [], _ => none
  | (k', v) :: rest, k => if k' = k then some v else jfind rest k

/-- Go map assignment on an exported payload map. -/
def jinsert : List (String × JVal) → String → JVal → List (String × JVal)
  | [], k, v => [(k, v)]
  | (k', v') :: rest, k, v =>
    if k' = k then (k, v) :: rest else (k', v') :: jinsert rest k v

/-- `LoggingContext.ToJSON` from ctxlog.go: a payload seeded with the
process instance identifier under `"instance_id"`, then one entry per
tag key with the single-item collapse.  The Go iteration order over the
map is unspecified, so only `jfind` facts are stated about the result.
The instance identifier (`globalUUID`, random at startup) is passed in
as `gu`. -/
def ToJSON (gu : String) (lc : LoggingContext) : List (String × JVal) :=
  lc.tags.foldl (fun ret kv => jinsert ret kv.1 (collapse kv.2))
    [("instance_id", JVal.scalar (.str gu))]

/-- `toPayload` on a context: `ToJSON` of its logging view. -/
def toPayload (gu : String) (c : Ctx) : List (String × JVal) :=
  ToJSON gu c.getLog

/-- One log event as handed to the dispatcher: the context at emission
time, the severity level name, and the formatted message. -/
structure Event where
  ctx : Ctx
  level : String
  msg : String
deriving DecidableEq, Repr

/-- The first step of `Trace` (ctxlog.go): if the supplied context is a
`LoggingContext` carrying a `span_id` tag, override `parent_id` with
that tag's first value (`n[0]`; the value sequence of a present tag is
never empty in a reachable context, so `headD` is exact there). -/
def traceParent (ctx : Ctx) : Ctx :=
  match ctx with
  | .logging c =>
    match TagMap.find c.tags "span_id" with
    | some n => WithAll ctx [{ K := "parent_id", V := n.headD (.str ""), Override := true }]
    | none => ctx
  | .plain _ => ctx

/-- The context `Trace` derives for the traced body once span-id
generation has produced `s` at entry time `t0`: parent linkage, then
override `span_id`, `name` and `start_time`. -/
def traceBodyCtx (s : String) (t0 : Int) (name : String) (ctx : Ctx) : Ctx :=
  WithAll (traceParent ctx)
    [{ K := "span_id", V := .str s, Override := true },
     { K := "name", V := .str name, Override := true },
     { K := "start_time", V := .int t0, Override := true }]

/-- The context `Trace` emits the span summary through, at exit time
`t1`: the body context with `dur_ms` and `end_time` overridden. -/
def traceEndCtx (s : String) (t0 t1 : Int) (name : String) (ctx : Ctx) : Ctx :=
  WithAll (traceBodyCtx s t0 name ctx)
    [{ K := "dur_ms", V := .int (t1 - t0), Override := true },
     { K := "end_time", V := .int t1, Override := true }]

/-- `Trace` from ctxlog.go.  Effects are made explicit: `gen` is the
result of `uuid.NewRandom` (span-identifier generation), `t0`/`t1` the
wall clock at entry/exit, and the body `fn` returns the events it emits
together with its error result.  `Trace` returns all emitted events (in
emission order) and the error returned to its caller.  On generation
failure it emits the `Errorf` event and returns the generation error
without invoking the body; otherwise it runs the body on the derived
context and emits exactly one `Infof "span"` summary afterwards. -/
def Trace (gen : Except String String) (t0 t1 : Int) (ctx : Ctx) (name : String)
    (fn : Ctx → List Event × Option String) : List Event × Option String :=
  match gen with
  | .error e =>
    ([{ ctx := traceParent ctx, level := "ERROR",
        msg := "could not generate span ID: " ++ e }], some e)
  | .ok s =>
    let r := fn (traceBodyCtx s t0 name ctx)
    (r.1 ++ [{ ctx := traceEndCtx s t0 t1 name ctx, level := "INFO", msg := "span" }], r.2)

/-- A registered sink's behaviour, reduced to what the dispatcher can
observe: whether its `Log` call returns nil for the given event. -/
structure SinkImpl where
  logOk : Ctx → String → String → Bool

/-- One call made by the dispatcher: either a registered sink's `Log`
invocation with the event, or the backup `console.Log` error report
`"Could not process log sink '<name>': …"` emitted when that sink's
`Log` returned an error. -/
inductive SinkCall where
  | sink (name : String) (ctx : Ctx) (level : String) (msg : String)
  | consoleReport (failedName : String) (ctx : Ctx)
deriving DecidableEq, Repr

/-- The console sink never fails (`ConsoleSink.Log` returns nil on every
path), so its registry entry always reports success. -/
def consoleImpl : SinkImpl := { logOk := fun _ _ _ => true }

/-- The initial process-wide sink registry from sinks.go: just the
console sink. -/
def sinks0 : List (String × SinkImpl) := [("console", consoleImpl)]

/-- `UseSink` from sinks.go: insert or replace the named sink. -/
def UseSink (reg : List (String × SinkImpl)) (name : String) (s : SinkImpl) :
    List (String × SinkImpl) :=
  match reg with
  | [] => [(name, s)]
  | (n', s') :: rest =>
    if n' = name then (name, s) :: rest else (n', s') :: UseSink rest name s

/-- `logf` from ctxlog.go: for every registered sink, call its `Log` with
the event; if that returns an error, report it through the backup
console sink and keep going.  Go map iteration order is unspecified;
the registry list fixes one serialization of it. -/
def logf (reg : List (String × SinkImpl)) (ctx : Ctx) (level msg : String) : List SinkCall :=
  match reg with
  | [] => []
  | p :: rest =>
    SinkCall.sink p.1 ctx level msg ::
      ((if p.2.logOk ctx level msg then [] else [SinkCall.consoleReport p.1 ctx]) ++
        logf rest ctx level msg)

/-- Go's `%-ns` padding: pad on the right with spaces up to width `n`. -/
def padR (n : Nat) (s : String) : String :=
  s ++ String.mk (List.replicate (n - s.length) ' ')

/-- Go's `%v` rendering of a stored tag value. -/
def Value.render : Value → String
  | .str s => s
  | .int n => toString n

/-- Go's `%v` rendering of a `[]interface{}` value sequence. -/
def renderVals (vs : List Value) : String :=
  "[" ++ String.intercalate " " (vs.map Value.render) ++ "]"

/-- The ` key=value` fragment `ConsoleSink.Log` appends for one tag key:
a single-item value sequence prints as the bare item, anything else as
the whole list. -/
def renderTag (m : TagMap) (k : String) : String :=
  let val := (TagMap.find m k).getD []
  if val.length = 1 then " " ++ k ++ "=" ++ Value.render (val.headD (.str ""))
  else " " ++ k ++ "=" ++ renderVals val

/-- `ConsoleSink.Log` from sinks.go, with the colour functions as the
identity (their content-free rendering, exactly the `DISABLE_COLOR_OUTPUT`
path): format the level and message, append each tag of a logging
context in insertion order, always append the global instance identifier
(`gu`) last under the key `uuid`, print, and return nil.  The result is
the printed line and the returned error. -/
def ConsoleLog (gu : String) (ctx : Ctx) (levelname msg : String) : String × Option String :=
  let s := "[" ++ padR 6 levelname ++ "] " ++ padR 40 msg
  let s :=
    match ctx with
    | .logging lc => lc.order.foldl (fun s k => s ++ renderTag lc.tags k) s
    | .plain _ => s
  (s ++ " uuid=" ++ gu, none)

/-- Whether `suf` is a suffix of the rendered line `s`, computed on the
underlying character lists (used to state "… rendered last"). -/
def strEnds (s suf : String) : Bool := suf.data.isSuffixOf s.data

/-- Contexts reachable from a plain ambient context by any sequence of
the package's derivation operations. -/
inductive Reach : Ctx → Prop where
  | base (b : BaseCtx) : Reach (.plain b)
  | withAll (c : Ctx) (ts : List Tag) : Reach c → Reach (WithAll c ts)
  | withValue (c : Ctx) (k : String) (v : Value) : Reach c → Reach (WithValue c k v)
  | clone (c : Ctx) : Reach c → Reach (Clone c)

/-- The TagSet bookkeeping invariant on a pair of `tags` map and `order`
sequence: `order` has no duplicates, the map's keys have no duplicates,
and `order` holds exactly the map's key set. -/
def PairInv (m : TagMap) (ord : List String) : Prop :=
  ord.Nodup ∧ (TagMap.keys m).Nodup ∧ ∀ k, k ∈ ord ↔ k ∈ TagMap.keys m

/-- The TagSet invariant on a context: trivial for a plain context,
`PairInv` of the owned snapshot for a logging one. -/
def Inv : Ctx → Prop
  | .plain _ => True
  | .logging lc => PairInv lc.tags lc.order

/-! ## Heap model of the two `With` iterations

Mutation claims cannot be observed in a pure embedding, so the tags maps
are placed in an explicit heap: a `HCtx` holds a reference to its tags
map cell.  `WithAllH` is ctxlog.go's `WithAll` (allocate a fresh cell,
copy the parent's entries into it, apply the writes there); `WithH0` is
the earlier iteration's `With`, which writes through the parent's shared
cell. -/

/-- The heap of allocated Go tags maps; a reference is an index. -/
structure Heap where
  cells : List TagMap
deriving Repr

/-- Read the map a reference points to. -/
def Heap.read (h : Heap) (r : Nat) : TagMap := h.cells.getD r []

/-- Overwrite the map a reference points to. -/
def Heap.write (h : Heap) (r : Nat) (m : TagMap) : Heap := ⟨h.cells.set r m⟩

/-- Allocate a fresh map cell, returning the new heap and reference. -/
def Heap.alloc (h : Heap) (m : TagMap) : Heap × Nat :=
  (⟨h.cells ++ [m]⟩, h.cells.length)

/-- A heap-model `LoggingContext`: a reference to its tags map plus its
(value-semantics) order slice.  The `order` slice is kept pure because
neither iteration ever writes an existing index of a shared order
backing array, so no order mutation is observable. -/
structure HLoggingContext where
  tagsRef : Nat
  order : List String
deriving DecidableEq, Repr

/-- A heap-model context. -/
inductive HCtx where
  | plain
  | logging (lc : HLoggingContext)
deriving DecidableEq, Repr

/-- The tags observable through a heap-model context. -/
def visTags (h : Heap) : HCtx → TagMap
  | .plain => []
  | .logging lc => h.read lc.tagsRef

/-- A context is well formed in a heap when its tags reference points at
an allocated cell (true of every context an actual run produces). -/
def HCtx.wf (h : Heap) : HCtx → Prop
  | .plain => True
  | .logging lc => lc.tagsRef < h.cells.length

/-- ctxlog.go's `WithAll` in the heap model: allocate a fresh map holding
a copy of the parent's entries and apply all writes to that fresh cell;
the parent's cell is never written. -/
def WithAllH (h : Heap) (ctx : HCtx) (tags : List Tag) : Heap × HCtx :=
  match ctx with
  | .logging lc =>
    let a := h.alloc (h.read lc.tagsRef)
    let p := applyTags (h.read lc.tagsRef) lc.order tags
    (a.1.write a.2 p.1, .logging { tagsRef := a.2, order := p.2 })
  | .plain =>
    let p := applyTags [] [] tags
    let a := h.alloc p.1
    (a.1, .logging { tagsRef := a.2, order := p.2 })

/-- The earlier iteration's `With` in the heap model: the struct copy of
the parent shares the tags map, and `lc.tags[k] = append(lc.tags[k], v)`
writes through that shared reference; only the `order` slice header is
local to the child. -/
def WithH0 (h : Heap) (ctx : HCtx) (k : String) (v : Value) : Heap × HCtx :=
  match ctx with
  | .logging lc =>
    let m := h.read lc.tagsRef
    let ex := (TagMap.find m k).isSome
    let h1 := h.write lc.tagsRef (TagMap.insert m k ((TagMap.find m k).getD [] ++ [v]))
    (h1, .logging { tagsRef := lc.tagsRef, order := if ex then lc.order else lc.order ++ [k] })
  | .plain =>
    let a := h.alloc [(k, [v])]
    (a.1, .logging { tagsRef := a.2, order := [k] })

/-- `Clone` (current iteration) in the heap model: allocate a fresh map
holding a copy of the source's entries; the source cell is never
written. -/
def CloneH (h : Heap) (ctx : HCtx) : Heap × HCtx :=
  match ctx with
  | .logging lc =>
    let a := h.alloc (h.read lc.tagsRef)
    (a.1, .logging { tagsRef := a.2, order := lc.order })
  | .plain =>
    let a := h.alloc []
    (a.1, .logging { tagsRef := a.2, order := [] })

/-- Concatenation of rendered fragments. -/
def strConcat : List String → String
  | [] => ""
  | s :: rest => s ++ strConcat rest

/-- An always-failing sink, the `A` of the spec's fan-out example. -/
def sinkA : SinkImpl := { logOk := fun _ _ _ => false }

/-- An always-succeeding sink, the `B` of the spec's fan-out example. -/
def sinkB : SinkImpl := { logOk := fun _ _ _ => true }

/-! ## Basic lemmas about the tags map -/

@[simp]
theorem TagMap.find_insert_self (m : TagMap) (k : String) (vs : List Value) :
    TagMap.find (TagMap.insert m k vs) k = some vs := by
  induction m with
  | nil => simp [TagMap.insert, TagMap.find]
  | cons p rest ih =>
    obtain ⟨k', vs'⟩ := p
    by_cases h : k' = k <;> simp [TagMap.insert, TagMap.find, h, ih]

theorem TagMap.find_insert_ne (m : TagMap) (k k' : String) (vs : List Value)
    (h : k' ≠ k) : TagMap.find (TagMap.insert m k vs) k' = TagMap.find m k' := by
  induction m with
  | nil => simp [TagMap.insert, TagMap.find, Ne.symm h]
  | cons p rest ih =>
    obtain ⟨k₀, vs₀⟩ := p
    by_cases h0 : k₀ = k
    · subst h0
      simp [TagMap.insert, TagMap.find, Ne.symm h, h]
    · by_cases h1 : k₀ = k' <;> simp [TagMap.insert, TagMap.find, h0, h1, ih, h, Ne.symm h]

theorem TagMap.mem_keys_iff (m : TagMap) (k : String) :
    k ∈ TagMap.keys m ↔ (TagMap.find m k).isSome := by
  induction m with
  | nil => simp [TagMap.keys, TagMap.find]
  | cons p rest ih =>
    obtain ⟨k', vs'⟩ := p
    by_cases h : k' = k
    · simp [TagMap.keys, TagMap.find, h]
    · simp [TagMap.keys, TagMap.find, h, ih, Ne.symm h]

theorem TagMap.keys_insert_of_mem (m : TagMap) (k : String) (vs : List Value)
    (h : k ∈ TagMap.keys m) :
    TagMap.keys (TagMap.insert m k vs) = TagMap.keys m := by
  induction m with
  | nil => simp [TagMap.keys] at h
  | cons p rest ih =>
    obtain ⟨k', vs'⟩ := p
    by_cases h0 : k' = k
    · simp [TagMap.insert, TagMap.keys, h0]
    · simp only [TagMap.keys, List.mem_cons] at h
      rcases h with h | h
      · exact absurd h.symm h0
      · simp [TagMap.insert, TagMap.keys, h0, ih h]

theorem TagMap.keys_insert_of_not_mem (m : TagMap) (k : String) (vs : List Value)
    (h : k ∉ TagMap.keys m) :
    TagMap.keys (TagMap.insert m k vs) = TagMap.keys m ++ [k] := by
  induction m with
  | nil => simp [TagMap.insert, TagMap.keys]
  | cons p rest ih =>
    obtain ⟨k', vs'⟩ := p
    simp only [TagMap.keys, List.mem_cons, not_or] at h
    have hne : k' ≠ k := fun e => h.1 e.symm
    simp [TagMap.insert, TagMap.keys, hne, ih h.2]

theorem TagMap.keys_nodup_insert (m : TagMap) (k : String) (vs : List Value)
    (h : (TagMap.keys m).Nodup) : (TagMap.keys (TagMap.insert m k vs)).Nodup := by
  by_cases hk : k ∈ TagMap.keys m
  · rw [TagMap.keys_insert_of_mem m k vs hk]; exact h
  · rw [TagMap.keys_insert_of_not_mem m k vs hk]
    simp [List.nodup_append, h, hk]

/-! ## Basic lemmas about the exported payload map -/

@[simp]
theorem jfind_jinsert_self (r : List (String × JVal)) (k : String) (v : JVal) :
    jfind (jinsert r k v) k = some v := by
  induction r with
  | nil => simp [jinsert, jfind]
  | cons p rest ih =>
    obtain ⟨k', v'⟩ := p
    by_cases h : k' = k <;> simp [jinsert, jfind, h, ih]

theorem jfind_jinsert_ne (r : List (String × JVal)) (k k' : String) (v : JVal)
    (h : k' ≠ k) : jfind (jinsert r k v) k' = jfind r k' := by
  induction r with
  | nil => simp [jinsert, jfind, Ne.symm h]
  | cons p rest ih =>
    obtain ⟨k₀, v₀⟩ := p
    by_cases h0 : k₀ = k
    · subst h0
      simp [jinsert, jfind, Ne.symm h, h]
    · by_cases h1 : k₀ = k' <;> simp [jinsert, jfind, h0, h1, ih, h, Ne.symm h]

/-- Folding the ToJSON writes of entries whose keys avoid `k` leaves the
payload entry at `k` unchanged. -/
theorem jfind_fold_of_not_mem (l : TagMap) (init : List (String × JVal)) (k : String)
    (h : k ∉ TagMap.keys l) :
    jfind (l.foldl (fun ret kv => jinsert ret kv.1 (collapse kv.2)) init) k
      = jfind init k := by
  induction l generalizing init with
  | nil => rfl
  | cons p rest ih =>
    obtain ⟨k', vs'⟩ := p
    simp only [TagMap.keys, List.mem_cons, not_or] at h
    rw [List.foldl_cons, ih _ h.2]
    exact jfind_jinsert_ne init k' k _ h.1

/-- With distinct keys in the tags map, the ToJSON fold puts the
collapse of a key's value sequence into the payload at that key. -/
theorem jfind_fold_of_find (l : TagMap) (init : List (String × JVal)) (k : String)
    (vs : List Value) (hnd : (TagMap.keys l).Nodup) (h : TagMap.find l k = some vs) :
    jfind (l.foldl (fun ret kv => jinsert ret kv.1 (collapse kv.2)) init) k
      = some (collapse vs) := by
  induction l generalizing init with
  | nil => simp [TagMap.find] at h
  | cons p rest ih =>
    obtain ⟨k', vs'⟩ := p
    simp only [TagMap.keys, List.nodup_cons] at hnd
    by_cases h0 : k' = k
    · subst h0
      have h' : vs' = vs := by simpa [TagMap.find] using h
      subst h'
      rw [List.foldl_cons, jfind_fold_of_not_mem _ _ _ hnd.1]
      exact jfind_jinsert_self init k' (collapse vs')
    · simp only [TagMap.find, if_neg h0] at h
      rw [List.foldl_cons]
      exact ih _ hnd.2 h

/-- With distinct keys, `ToJSON` exposes each tag key as the collapse of
its accumulated value sequence. -/
theorem jfind_ToJSON (gu : String) (lc : LoggingContext) (k : String) (vs : List Value)
    (hnd : (TagMap.keys lc.tags).Nodup) (h : TagMap.find lc.tags k = some vs) :
    jfind (ToJSON gu lc) k = some (collapse vs) :=
  jfind_fold_of_find lc.tags _ k vs hnd h

/-- When no tag is named `instance_id`, `ToJSON` exposes the process
instance identifier under that reserved key. -/
theorem jfind_ToJSON_instance (gu : String) (lc : LoggingContext)
    (h : "instance_id" ∉ TagMap.keys lc.tags) :
    jfind (ToJSON gu lc) "instance_id" = some (.scalar (.str gu)) := by
  rw [ToJSON, jfind_fold_of_not_mem _ _ _ h]
  simp [jfind]

/-! ## Lemmas about the write loop -/

theorem find_applyTag_ne (r : TagMap × List String) (x : Tag) (k : String)
    (h : x.K ≠ k) : TagMap.find (applyTag r x).1 k = TagMap.find r.1 k := by
  by_cases hov : x.Override <;>
    simp [applyTag, hov, TagMap.find_insert_ne _ _ _ _ (Ne.symm h)]

theorem find_applyTags_ne (ts : List Tag) (m : TagMap) (ord : List String) (k : String)
    (h : ∀ t ∈ ts, t.K ≠ k) :
    TagMap.find (applyTags m ord ts).1 k = TagMap.find m k := by
  induction ts generalizing m ord with
  | nil => rfl
  | cons t ts ih =>
    have step : applyTags m ord (t :: ts)
        = applyTags (applyTag (m, ord) t).1 (applyTag (m, ord) t).2 ts := rfl
    rw [step, ih _ _ (fun u hu => h u (List.mem_cons_of_mem t hu))]
    exact find_applyTag_ne (m, ord) t k (h t (List.mem_cons_self t ts))

theorem find_applyTag_self_override (r : TagMap × List String) (k : String) (v : Value) :
    TagMap.find (applyTag r { K := k, V := v, Override := true }).1 k = some [v] := by
  simp [applyTag]

/-- The write loop only ever appends to the order sequence. -/
theorem applyTags_order_extend (ts : List Tag) (m : TagMap) (ord : List String) :
    ∃ ex, (applyTags m ord ts).2 = ord ++ ex := by
  induction ts generalizing m ord with
  | nil => exact ⟨[], by simp [applyTags]⟩
  | cons t ts ih =>
    have step : applyTags m ord (t :: ts)
        = applyTags (applyTag (m, ord) t).1 (applyTag (m, ord) t).2 ts := rfl
    obtain ⟨ex, hex⟩ := ih (applyTag (m, ord) t).1 (applyTag (m, ord) t).2
    by_cases hx : (TagMap.find m t.K).isSome
    · exact ⟨ex, by rw [step, hex]; simp [applyTag, hx]⟩
    · refine ⟨t.K :: ex, ?_⟩
      rw [step, hex]
      simp [applyTag, hx]

/-- One write preserves the TagSet bookkeeping invariant. -/
theorem pairInv_write (m : TagMap) (ord : List String) (k : String) (vs : List Value)
    (h : PairInv m ord) :
    PairInv (TagMap.insert m k vs)
      (if (TagMap.find m k).isSome then ord else ord ++ [k]) := by
  obtain ⟨hord, hkeys, hiff⟩ := h
  by_cases hx : (TagMap.find m k).isSome
  · have hkmem : k ∈ TagMap.keys m := (TagMap.mem_keys_iff m k).2 hx
    rw [if_pos hx]
    refine ⟨hord, ?_, ?_⟩
    · rw [TagMap.keys_insert_of_mem m k vs hkmem]; exact hkeys
    · intro k'
      rw [TagMap.keys_insert_of_mem m k vs hkmem]; exact hiff k'
  · have hkmem : k ∉ TagMap.keys m := fun hm => hx ((TagMap.mem_keys_iff m k).1 hm)
    have hkord : k ∉ ord := fun hk => hkmem ((hiff k).1 hk)
    rw [if_neg hx]
    refine ⟨?_, ?_, ?_⟩
    · simp [List.nodup_append, hord, hkord]
    · rw [TagMap.keys_insert_of_not_mem m k vs hkmem]
      simp [List.nodup_append, hkeys, hkmem]
    · intro k'
      rw [TagMap.keys_insert_of_not_mem m k vs hkmem]
      simp only [List.mem_append, List.mem_singleton, hiff k']

theorem pairInv_applyTag (r : TagMap × List String) (x : Tag) (h : PairInv r.1 r.2) :
    PairInv (applyTag r x).1 (applyTag r x).2 := by
  by_cases hov : x.Override <;>
    simpa [applyTag, hov] using pairInv_write r.1 r.2 x.K _ h

theorem pairInv_applyTags (ts : List Tag) (m : TagMap) (ord : List String)
    (h : PairInv m ord) : PairInv (applyTags m ord ts).1 (applyTags m ord ts).2 := by
  induction ts generalizing m ord with
  | nil => exact h
  | cons t ts ih =>
    have step : applyTags m ord (t :: ts)
        = applyTags (applyTag (m, ord) t).1 (applyTag (m, ord) t).2 ts := rfl
    rw [step]
    exact ih _ _ (pairInv_applyTag (m, ord) t h)

theorem pairInv_empty : PairInv [] [] :=
  ⟨List.nodup_nil, List.nodup_nil, by simp [TagMap.keys]⟩

@[simp]
theorem WithAll_tagsOf (c : Ctx) (ts : List Tag) :
    (WithAll c ts).tagsOf = (applyTags c.tagsOf c.orderOf ts).1 := by
  cases c <;> rfl

@[simp]
theorem WithAll_orderOf (c : Ctx) (ts : List Tag) :
    (WithAll c ts).orderOf = (applyTags c.tagsOf c.orderOf ts).2 := by
  cases c <;> rfl

/-- The TagSet invariant holds for every reachable context. -/
theorem reach_inv (c : Ctx) (h : Reach c) : Inv c := by
  induction h with
  | base b => trivial
  | withAll c ts _ ih =>
    cases c with
    | plain b => exact pairInv_applyTags ts [] [] pairInv_empty
    | logging lc => exact pairInv_applyTags ts lc.tags lc.order ih
  | withValue c k v _ ih =>
    cases c with
    | plain b => exact pairInv_empty
    | logging lc => exact ih
  | clone c _ ih =>
    cases c with
    | plain b => exact pairInv_empty
    | logging lc => exact ih

/-! ## Lemmas about the heap model -/

theorem visTags_WithAllH (h : Heap) (c : HCtx) (ts : List Tag) (hwf : c.wf h) :
    visTags (WithAllH h c ts).1 c = visTags h c := by
  cases c with
  | plain => rfl
  | logging lc =>
    have hlt : lc.tagsRef < h.cells.length := hwf
    show Heap.read _ lc.tagsRef = Heap.read h lc.tagsRef
    simp only [WithAllH, Heap.read, Heap.write, Heap.alloc, List.getD_eq_getElem?_getD]
    rw [List.getElem?_set_ne (by omega), List.getElem?_append_left hlt]

/-! ## Lemmas about the derived tracing contexts -/

/-- The three span writes (`span_id`, `name`, `start_time`) do not touch
the `parent_id` entry. -/
theorem find_traceBodyCtx_parent (s : String) (t0 : Int) (nm : String) (ctx : Ctx) :
    TagMap.find (traceBodyCtx s t0 nm ctx).tagsOf "parent_id"
      = TagMap.find (traceParent ctx).tagsOf "parent_id" := by
  rw [traceBodyCtx, WithAll_tagsOf]
  refine find_applyTags_ne _ _ _ _ ?_
  intro t ht
  simp only [List.mem_cons, List.not_mem_nil, or_false] at ht
  rcases ht with rfl | rfl | rfl <;> simp

/-- When the supplied context carries a `span_id` tag, the parent step
overrides `parent_id` with its first value. -/
theorem find_traceParent_of_span (c : Ctx) (vs : List Value)
    (h : TagMap.find c.tagsOf "span_id" = some vs) :
    TagMap.find (traceParent c).tagsOf "parent_id" = some [vs.headD (.str "")] := by
  cases c with
  | plain b => simp [Ctx.tagsOf, Ctx.getLog, TagMap.find] at h
  | logging lc =>
    have h' : TagMap.find lc.tags "span_id" = some vs := h
    rw [traceParent]
    simp only [h', WithAll_tagsOf]
    have step : applyTags (Ctx.logging lc).tagsOf (Ctx.logging lc).orderOf
          [{ K := "parent_id", V := vs.headD (.str ""), Override := true }]
        = applyTag ((Ctx.logging lc).tagsOf, (Ctx.logging lc).orderOf)
            { K := "parent_id", V := vs.headD (.str ""), Override := true } := rfl
    rw [step]
    exact find_applyTag_self_override _ _ _

/-- The context handed to the traced body always carries the freshly
generated span identifier as its single `span_id` value. -/
theorem find_traceBodyCtx_span (s : String) (t0 : Int) (nm : String) (ctx : Ctx) :
    TagMap.find (traceBodyCtx s t0 nm ctx).tagsOf "span_id" = some [.str s] := by
  rw [traceBodyCtx, WithAll_tagsOf]
  have step : ∀ (m : TagMap) (ord : List String),
      applyTags m ord
        [{ K := "span_id", V := .str s, Override := true },
         { K := "name", V := .str nm, Override := true },
         { K := "start_time", V := .int t0, Override := true }]
      = applyTags
          (applyTag (m, ord) { K := "span_id", V := .str s, Override := true }).1
          (applyTag (m, ord) { K := "span_id", V := .str s, Override := true }).2
          [{ K := "name", V := .str nm, Override := true },
           { K := "start_time", V := .int t0, Override := true }] := fun _ _ => rfl
  rw [step]
  rw [find_applyTags_ne _ _ _ _ (by
    intro t ht
    simp only [List.mem_cons, List.not_mem_nil, or_false] at ht
    rcases ht with rfl | rfl <;> simp)]
  exact find_applyTag_self_override _ _ _

/-! ## Lemmas about the console rendering and the dispatcher -/

/-- The console sink's tag loop is the concatenation of the per-key
fragments, in `order` order. -/
theorem foldl_renderTag (m : TagMap) (l : List String) (s0 : String) :
    l.foldl (fun s k => s ++ renderTag m k) s0 = s0 ++ strConcat (l.map (renderTag m)) := by
  induction l generalizing s0 with
  | nil => simp [strConcat]
  | cons k l ih =>
    rw [List.foldl_cons, ih, List.map_cons, strConcat, String.append_assoc]

/-- A name absent from the registry produces neither a `Log` invocation
nor a console failure report. -/
theorem logf_not_mem (reg : List (String × SinkImpl)) (ctx : Ctx) (lvl msg : String)
    (name : String) (h : name ∉ reg.map Prod.fst) :
    SinkCall.sink name ctx lvl msg ∉ logf reg ctx lvl msg
    ∧ ∀ c, SinkCall.consoleReport name c ∉ logf reg ctx lvl msg := by
  induction reg with
  | nil => simp [logf]
  | cons p rest ih =>
    simp only [List.map_cons, List.mem_cons, not_or] at h
    obtain ⟨ihs, ihr⟩ := ih h.2
    constructor
    · intro hmem
      rw [logf] at hmem
      rcases List.mem_cons.1 hmem with heq | hmem
      · injection heq with h1 h2 h3 h4
        exact h.1 h1
      · rcases List.mem_append.1 hmem with hmem | hmem
        · by_cases hok : p.2.logOk ctx lvl msg
          · simp [if_pos hok] at hmem
          · simp only [if_neg hok, List.mem_singleton] at hmem
            exact absurd hmem (by simp)
        · exact ihs hmem
    · intro c hmem
      rw [logf] at hmem
      rcases List.mem_cons.1 hmem with heq | hmem
      · exact absurd heq (by simp)
      · rcases List.mem_append.1 hmem with hmem | hmem
        · by_cases hok : p.2.logOk ctx lvl msg
          · simp [if_pos hok] at hmem
          · simp only [if_neg hok, List.mem_singleton] at hmem
            injection hmem with h1 h2
            exact h.1 h1
        · exact ihr c hmem

theorem visTags_CloneH (h : Heap) (c : HCtx) (hwf : c.wf h) :
    visTags (CloneH h c).1 c = visTags h c := by
  cases c with
  | plain => rfl
  | logging lc =>
    have hlt : lc.tagsRef < h.cells.length := hwf
    show Heap.read _ lc.tagsRef = Heap.read h lc.tagsRef
    simp only [CloneH, Heap.read, Heap.alloc, List.getD_eq_getElem?_getD]
    rw [List.getElem?_append_left hlt]

theorem logf_count_not_mem (reg : List (String × SinkImpl)) (ctx : Ctx) (lvl msg : String)
    (name : String) (h : name ∉ reg.map Prod.fst) :
    (logf reg ctx lvl msg).count (SinkCall.sink name ctx lvl msg) = 0 :=
  List.count_eq_zero.2 (logf_not_mem reg ctx lvl msg name h).1

/-- The span-generation error message can never be mistaken for the span
summary message. -/
theorem error_msg_ne_span (e : String) : ("could not generate span ID: " ++ e) ≠ "span" := by
  intro hcontra
  have hlen := congrArg String.length hcontra
  have h1 : ("could not generate span ID: " : String).length = 28 := rfl
  have h2 : ("span" : String).length = 4 := rfl
  rw [String.length_append, h1, h2] at hlen
  omega

/-! ## The claims -/

/-- Claim C1.  In the heap model, the current iteration's derivations
never change the tags visible through the input context: `WithAll`
(hence `With`) and `Clone` allocate a fresh map cell and never write the
parent's cell, and `WithValue` leaves the tag snapshot untouched.  The
earlier iteration's `With`, however, mutates its input: deriving from
`C0 = With(Background,"k","a")` a child with a second write to `"k"`
changes the tags visible through `C0` itself from `k=[a]` to `k=[a,b]`
— the mutation escapes into the parent, contradicting the claimed
immutability. -/
theorem claim1_immutability :
    (∀ (h : Heap) (c : HCtx) (ts : List Tag), c.wf h →
        visTags (WithAllH h c ts).1 c = visTags h c)
    ∧ (∀ (h : Heap) (c : HCtx), c.wf h → visTags (CloneH h c).1 c = visTags h c)
    ∧ (∀ (c : Ctx) (k : String) (v : Value),
        (WithValue c k v).tagsOf = c.tagsOf ∧ (WithValue c k v).orderOf = c.orderOf)
    ∧ (visTags (WithH0 ⟨[]⟩ .plain "k" (.str "a")).1
          (WithH0 ⟨[]⟩ .plain "k" (.str "a")).2 = [("k", [.str "a"])]
       ∧ visTags (WithH0 (WithH0 ⟨[]⟩ .plain "k" (.str "a")).1
            (WithH0 ⟨[]⟩ .plain "k" (.str "a")).2 "k" (.str "b")).1
          (WithH0 ⟨[]⟩ .plain "k" (.str "a")).2 = [("k", [.str "a", .str "b"])]) := by
  refine ⟨visTags_WithAllH, visTags_CloneH, ?_, by decide⟩
  intro c k v
  cases c <;> exact ⟨rfl, rfl⟩

/-- Claim C1 witness: the immutability conjuncts applied at a concrete
well-formed heap and context. -/
theorem claim1_witness :
    HCtx.wf ⟨[[("x", [Value.str "1"])]]⟩ (HCtx.logging ⟨0, ["x"]⟩)
    ∧ visTags (WithAllH ⟨[[("x", [Value.str "1"])]]⟩ (HCtx.logging ⟨0, ["x"]⟩)
          [{ K := "k", V := Value.str "a", Override := false }]).1 (HCtx.logging ⟨0, ["x"]⟩)
        = visTags ⟨[[("x", [Value.str "1"])]]⟩ (HCtx.logging ⟨0, ["x"]⟩)
    ∧ visTags (CloneH ⟨[[("x", [Value.str "1"])]]⟩ (HCtx.logging ⟨0, ["x"]⟩)).1
          (HCtx.logging ⟨0, ["x"]⟩)
        = visTags ⟨[[("x", [Value.str "1"])]]⟩ (HCtx.logging ⟨0, ["x"]⟩) :=
  ⟨Nat.one_pos, claim1_immutability.1 _ _ _ Nat.one_pos,
    claim1_immutability.2.1 _ _ Nat.one_pos⟩

/-- Claim C2 counterexample: the claim quantifies over every context
`C`, but when `C` already carries the key (here `k="z"`), the two
accumulate writes yield the payload `k=[z,a,b]`, not the two-element
list `[a,b]`. -/
theorem claim2_counterexample :
    jfind (toPayload "u" (With (With (With (Ctx.plain .background) "k" (.str "z"))
        "k" (.str "a")) "k" (.str "b"))) "k"
      = some (.list [.str "z", .str "a", .str "b"])
    ∧ jfind (toPayload "u" (With (With (With (Ctx.plain .background) "k" (.str "z"))
        "k" (.str "a")) "k" (.str "b"))) "k"
      ≠ some (.list [.str "a", .str "b"]) := by decide

/-- Claim C2 (amended).  For a context with a well-formed tags map that
does not already carry `k`, two accumulate writes of `a` then `b` to `k`
expose `k = [a, b]` in the payload; two override writes expose the
scalar `b` (for any such context, even one already carrying `k`); and in
general the payload exposes a key held at a single-element value
sequence as that bare value and a longer sequence as the full ordered
list. -/
theorem claim2_accumulate_vs_override (c : Ctx) (k : String) (a b : Value) (gu : String)
    (hnd : (TagMap.keys c.tagsOf).Nodup) :
    (TagMap.find c.tagsOf k = none →
        jfind (toPayload gu (With (With c k a) k b)) k = some (.list [a, b]))
    ∧ jfind (toPayload gu (WithAll (WithAll c [{ K := k, V := a, Override := true }])
        [{ K := k, V := b, Override := true }])) k = some (.scalar b)
    ∧ (∀ vs, TagMap.find c.tagsOf k = some vs →
        jfind (toPayload gu c) k = some (collapse vs)) := by
  refine ⟨?_, ?_, ?_⟩
  · intro hk
    have h1 : (With c k a).tagsOf = TagMap.insert c.tagsOf k [a] := by
      simp [With, WithAll_tagsOf, applyTags, applyTag, hk]
    have h2 : (With (With c k a) k b).tagsOf
        = TagMap.insert (TagMap.insert c.tagsOf k [a]) k [a, b] := by
      simp [With, WithAll_tagsOf, applyTags, applyTag, h1, hk]
    have hnd2 : (TagMap.keys (With (With c k a) k b).tagsOf).Nodup := by
      rw [h2]
      exact TagMap.keys_nodup_insert _ _ _ (TagMap.keys_nodup_insert _ _ _ hnd)
    have hfind : TagMap.find (With (With c k a) k b).tagsOf k = some [a, b] := by
      rw [h2]; exact TagMap.find_insert_self _ _ _
    have hj := jfind_ToJSON gu (With (With c k a) k b).getLog k [a, b] hnd2 hfind
    rw [toPayload, hj]
    simp [collapse]
  · have h1 : (WithAll c [{ K := k, V := a, Override := true }]).tagsOf
        = TagMap.insert c.tagsOf k [a] := by
      simp [WithAll_tagsOf, applyTags, applyTag]
    have h2 : (WithAll (WithAll c [{ K := k, V := a, Override := true }])
          [{ K := k, V := b, Override := true }]).tagsOf
        = TagMap.insert (TagMap.insert c.tagsOf k [a]) k [b] := by
      simp [WithAll_tagsOf, applyTags, applyTag, h1]
    have hnd2 : (TagMap.keys (WithAll (WithAll c [{ K := k, V := a, Override := true }])
          [{ K := k, V := b, Override := true }]).tagsOf).Nodup := by
      rw [h2]
      exact TagMap.keys_nodup_insert _ _ _ (TagMap.keys_nodup_insert _ _ _ hnd)
    have hfind : TagMap.find (WithAll (WithAll c [{ K := k, V := a, Override := true }])
          [{ K := k, V := b, Override := true }]).tagsOf k = some [b] := by
      rw [h2]; exact TagMap.find_insert_self _ _ _
    have hj := jfind_ToJSON gu _ k [b] hnd2 hfind
    rw [toPayload, hj]
    simp [collapse]
  · intro vs h
    exact jfind_ToJSON gu c.getLog k vs hnd h

/-- Claim C2 witness: the amended statement applied at the empty root
context with `k="k"`, `a="a"`, `b="b"`. -/
theorem claim2_witness :
    jfind (toPayload "u" (With (With (Ctx.plain .background) "k" (.str "a")) "k" (.str "b"))) "k"
      = some (.list [.str "a", .str "b"])
    ∧ jfind (toPayload "u" (WithAll (WithAll (Ctx.plain .background)
        [{ K := "k", V := .str "a", Override := true }])
        [{ K := "k", V := .str "b", Override := true }])) "k"
      = some (.scalar (.str "b")) :=
  ⟨(claim2_accumulate_vs_override (Ctx.plain .background) "k" (.str "a") (.str "b") "u"
      (by decide)).1 (by decide),
   (claim2_accumulate_vs_override (Ctx.plain .background) "k" (.str "a") (.str "b") "u"
      (by decide)).2.1⟩

/-- Claim C3.  For every reachable context the TagSet invariant holds:
`order` is duplicate-free and holds exactly the keys of `values`; a
derivation only ever extends `order` on the right, so an existing key's
position never changes; and the concrete `a`, `b`, `a` write sequence
yields `order = [a, b]`. -/
theorem claim3_order_invariant :
    (∀ c : Ctx, Reach c → Inv c)
    ∧ (∀ (c : Ctx) (ts : List Tag),
        (WithAll c ts).orderOf.take c.orderOf.length = c.orderOf)
    ∧ (WithAll (WithAll (WithAll (Ctx.plain .background)
        [{ K := "a", V := .str "1", Override := false }])
        [{ K := "b", V := .str "2", Override := false }])
        [{ K := "a", V := .str "3", Override := false }]).orderOf = ["a", "b"] := by
  refine ⟨reach_inv, ?_, by decide⟩
  intro c ts
  rw [WithAll_orderOf]
  obtain ⟨ex, hex⟩ := applyTags_order_extend ts c.tagsOf c.orderOf
  rw [hex]
  exact List.take_left _ _

/-- Claim C3 witness: the invariant instantiated at a concrete reachable
context. -/
theorem claim3_witness :
    Inv (WithAll (Ctx.plain .background) [{ K := "a", V := Value.str "1", Override := false }]) :=
  claim3_order_invariant.1 _ (Reach.withAll _ _ (Reach.base _))

/-- Claim C4.  `Clone` preserves the tag snapshot exactly (same keys,
values and order) while replacing the ambient base with a fresh
`Background`, so its cancellation query reports not-canceled for every
set of cancelled ancestors; concretely, cancelling the cancellable base
of `With(C,"k","v")` makes the original report canceled while its clone
still exposes `k="v"` and reports not-canceled. -/
theorem claim4_clone_detachment (c : Ctx) (canceled : List Nat) :
    (Clone c).tagsOf = c.tagsOf
    ∧ (Clone c).orderOf = c.orderOf
    ∧ Ctx.errSet canceled (Clone c) = false
    ∧ (Ctx.errSet [0] (With (Ctx.plain (.cancelCtx 0 .background)) "k" (.str "v")) = true
       ∧ Ctx.errSet [0] (Clone (With (Ctx.plain (.cancelCtx 0 .background)) "k" (.str "v")))
          = false
       ∧ TagMap.find (Clone (With (Ctx.plain (.cancelCtx 0 .background)) "k"
            (.str "v"))).tagsOf "k" = some [.str "v"]) := by
  refine ⟨?_, ?_, ?_, by decide⟩ <;> cases c <;> rfl

/-- Claim C5.  The span context derived by `Trace` carries `parent_id`
equal to the first value of the supplied context's `span_id` tag,
written as a single overridden value, and when no `span_id` is present
the `parent_id` entry is exactly whatever the supplied context already
had (nothing is added); nesting a second trace inside the first gives
the inner span a `parent_id` equal to the outer span's generated
identifier. -/
theorem claim5_span_parent_linkage (ctx : Ctx) (s s2 : String) (t0 t2 : Int)
    (nm nm2 : String) :
    (∀ vs, TagMap.find ctx.tagsOf "span_id" = some vs →
        TagMap.find (traceBodyCtx s t0 nm ctx).tagsOf "parent_id"
          = some [vs.headD (.str "")])
    ∧ (TagMap.find ctx.tagsOf "span_id" = none →
        TagMap.find (traceBodyCtx s t0 nm ctx).tagsOf "parent_id"
          = TagMap.find ctx.tagsOf "parent_id")
    ∧ TagMap.find (traceBodyCtx s2 t2 nm2 (traceBodyCtx s t0 nm ctx)).tagsOf "parent_id"
        = some [.str s] := by
  refine ⟨?_, ?_, ?_⟩
  · intro vs h
    rw [find_traceBodyCtx_parent]
    exact find_traceParent_of_span ctx vs h
  · intro h
    rw [find_traceBodyCtx_parent]
    cases ctx with
    | plain b => rfl
    | logging lc =>
      have h' : TagMap.find lc.tags "span_id" = none := h
      rw [traceParent]
      simp only [h']
  · rw [find_traceBodyCtx_parent]
    exact find_traceParent_of_span _ _ (find_traceBodyCtx_span s t0 nm ctx)

/-- Claim C5 witness: both linkage branches applied at concrete
contexts. -/
theorem claim5_witness :
    TagMap.find (traceBodyCtx "s1" 0 "op" (WithAll (Ctx.plain .background)
        [{ K := "span_id", V := Value.str "abc", Override := true }])).tagsOf "parent_id"
      = some [Value.str "abc"]
    ∧ TagMap.find (traceBodyCtx "s1" 0 "op" (Ctx.plain .background)).tagsOf "parent_id"
      = TagMap.find (Ctx.plain .background).tagsOf "parent_id" :=
  ⟨(claim5_span_parent_linkage (WithAll (Ctx.plain .background)
      [{ K := "span_id", V := Value.str "abc", Override := true }]) "s1" "x" 0 0 "op" "y").1
      [Value.str "abc"] (by decide),
   (claim5_span_parent_linkage (Ctx.plain .background) "s1" "x" 0 0 "op" "y").2.1 (by decide)⟩

/-- Claim C6.  When span-identifier generation succeeds, `Trace` returns
exactly the body's result, its event stream is the body's events
followed by the added events, and what it adds after the body returns is
exactly one informational `"span"` summary event. -/
theorem claim6_trace_transparent (s : String) (t0 t1 : Int) (ctx : Ctx) (nm : String)
    (fn : Ctx → List Event × Option String) :
    (Trace (.ok s) t0 t1 ctx nm fn).2 = (fn (traceBodyCtx s t0 nm ctx)).2
    ∧ (Trace (.ok s) t0 t1 ctx nm fn).1
        = (fn (traceBodyCtx s t0 nm ctx)).1
          ++ [{ ctx := traceEndCtx s t0 t1 nm ctx, level := "INFO", msg := "span" }]
    ∧ ((Trace (.ok s) t0 t1 ctx nm fn).1.drop (fn (traceBodyCtx s t0 nm ctx)).1.length)
        = [{ ctx := traceEndCtx s t0 t1 nm ctx, level := "INFO", msg := "span" }] := by
  refine ⟨rfl, rfl, ?_⟩
  show ((fn (traceBodyCtx s t0 nm ctx)).1
      ++ [({ ctx := traceEndCtx s t0 t1 nm ctx, level := "INFO", msg := "span" } : Event)]).drop
      (fn (traceBodyCtx s t0 nm ctx)).1.length = _
  rw [List.drop_left]

/-- Claim C7.  When span-identifier generation fails, `Trace` returns the
generation error, emits exactly the one error log event, never invokes
the body (the result is independent of it), and emits no span summary
event. -/
theorem claim7_generation_failure (e : String) (t0 t1 : Int) (ctx : Ctx) (nm : String)
    (fn fn' : Ctx → List Event × Option String) :
    (Trace (.error e) t0 t1 ctx nm fn).2 = some e
    ∧ (Trace (.error e) t0 t1 ctx nm fn).1
        = [{ ctx := traceParent ctx, level := "ERROR",
             msg := "could not generate span ID: " ++ e }]
    ∧ Trace (.error e) t0 t1 ctx nm fn = Trace (.error e) t0 t1 ctx nm fn'
    ∧ (Trace (.error e) t0 t1 ctx nm fn).1.filter (fun ev => ev.msg == "span") = [] := by
  refine ⟨rfl, rfl, rfl, ?_⟩
  have hne := error_msg_ne_span e
  show List.filter (fun ev => ev.msg == "span")
      [({ ctx := traceParent ctx, level := "ERROR",
          msg := "could not generate span ID: " ++ e } : Event)] = []
  have hb : (("could not generate span ID: " ++ e) == "span") = false :=
    beq_eq_false_iff_ne.2 hne
  simp [List.filter, hb]

/-- Claim C8.  For a registry with distinct sink names, one dispatch
invokes every registered sink's `Log` exactly once with the event; a
failing sink's failure is reported through the backup console sink and
does not prevent any other sink's invocation; a succeeding sink
triggers no console report. -/
theorem claim8_dispatch_fanout (reg : List (String × SinkImpl)) (ctx : Ctx)
    (lvl msg : String) (name : String) (s : SinkImpl)
    (hnd : (reg.map Prod.fst).Nodup) (hmem : (name, s) ∈ reg) :
    (logf reg ctx lvl msg).count (SinkCall.sink name ctx lvl msg) = 1
    ∧ (s.logOk ctx lvl msg = false →
        SinkCall.consoleReport name ctx ∈ logf reg ctx lvl msg)
    ∧ (s.logOk ctx lvl msg = true →
        SinkCall.consoleReport name ctx ∉ logf reg ctx lvl msg) := by
  induction reg with
  | nil => cases hmem
  | cons p rest ih =>
    simp only [List.map_cons, List.nodup_cons] at hnd
    rcases List.mem_cons.1 hmem with heq | hmem
    · subst heq
      have hz1 : (logf rest ctx lvl msg).count (SinkCall.sink name ctx lvl msg) = 0 :=
        logf_count_not_mem rest ctx lvl msg name hnd.1
      refine ⟨?_, ?_, ?_⟩
      · by_cases hok : s.logOk ctx lvl msg <;>
          simp [logf, hok, List.count_cons, List.count_append, hz1]
      · intro hfail
        rw [logf, if_neg (by simp [hfail])]
        exact List.mem_cons_of_mem _ (List.mem_append_left _ (List.mem_singleton.2 rfl))
      · intro hok
        rw [logf, if_pos hok, List.nil_append]
        intro hmem2
        rcases List.mem_cons.1 hmem2 with heq2 | hmem2
        · exact absurd heq2 (by simp)
        · exact (logf_not_mem rest ctx lvl msg name hnd.1).2 ctx hmem2
    · have hpname : p.1 ≠ name := by
        intro hcontra
        exact hnd.1 (hcontra ▸ List.mem_map_of_mem Prod.fst hmem)
      obtain ⟨c1, c2, c3⟩ := ih hnd.2 hmem
      refine ⟨?_, ?_, ?_⟩
      · by_cases hok : p.2.logOk ctx lvl msg <;>
          simp [logf, hok, List.count_cons, List.count_append, c1, hpname]
      · intro hfail
        rw [logf]
        exact List.mem_cons_of_mem _ (List.mem_append_right _ (c2 hfail))
      · intro hok
        intro hmem2
        rw [logf] at hmem2
        rcases List.mem_cons.1 hmem2 with heq2 | hmem2
        · exact absurd heq2 (by simp)
        · rcases List.mem_append.1 hmem2 with hmem2 | hmem2
          · by_cases hok2 : p.2.logOk ctx lvl msg
            · simp [if_pos hok2] at hmem2
            · simp only [if_neg hok2, List.mem_singleton] at hmem2
              injection hmem2 with h1 h2
              exact hpname h1.symm
          · exact c3 hok hmem2

/-- Claim C8 witness: with `A` (always fails) and `B` (always succeeds)
registered, one dispatch invokes `B.Log` exactly once and reports `A`'s
failure via the console. -/
theorem claim8_witness :
    (logf (UseSink (UseSink sinks0 "a" sinkA) "b" sinkB)
        (Ctx.plain .background) "INFO" "m").count
      (SinkCall.sink "b" (Ctx.plain .background) "INFO" "m") = 1
    ∧ SinkCall.consoleReport "a" (Ctx.plain .background)
        ∈ logf (UseSink (UseSink sinks0 "a" sinkA) "b" sinkB)
            (Ctx.plain .background) "INFO" "m" :=
  ⟨(claim8_dispatch_fanout (UseSink (UseSink sinks0 "a" sinkA) "b" sinkB)
      (Ctx.plain .background) "INFO" "m" "b" sinkB (by decide)
      (show ("b", sinkB) ∈ [("console", consoleImpl), ("a", sinkA), ("b", sinkB)] from
        List.Mem.tail _ (List.Mem.tail _ (List.Mem.head _)))).1,
   (claim8_dispatch_fanout (UseSink (UseSink sinks0 "a" sinkA) "b" sinkB)
      (Ctx.plain .background) "INFO" "m" "a" sinkA (by decide)
      (show ("a", sinkA) ∈ [("console", consoleImpl), ("a", sinkA), ("b", sinkB)] from
        List.Mem.tail _ (List.Mem.head _))).2.1 rfl⟩

/-- Claim C9 counterexample: the console sink renders the instance
identifier last under the key `uuid`, not `instance_id` (first two
conjuncts, at a concrete context); and a tag literally named
`instance_id` overwrites the reserved payload entry, so the payload's
`instance_id` is then not the instance identifier (third conjunct). -/
theorem claim9_counterexample :
    strEnds (ConsoleLog "u0" (With (Ctx.plain .background) "k" (.str "v")) "INFO" "m").1
        "instance_id=u0" = false
    ∧ strEnds (ConsoleLog "u0" (With (Ctx.plain .background) "k" (.str "v")) "INFO" "m").1
        " uuid=u0" = true
    ∧ jfind (toPayload "u0" (With (Ctx.plain .background) "instance_id" (.int 5)))
        "instance_id" = some (.scalar (.int 5)) := by decide

/-- Claim C9 (amended).  The console line is the padded level and
message, then the context's tags rendered in first-seen insertion
order, with the instance identifier rendered last under the key `uuid`;
and the exported payload of a well-formed tags map carries the instance
identifier under `instance_id` provided no tag uses that reserved name,
alongside one collapsed entry per tag key. -/
theorem claim9_console_and_payload (gu : String) (lc : LoggingContext) (lvl msg : String) :
    (ConsoleLog gu (.logging lc) lvl msg).1
      = "[" ++ padR 6 lvl ++ "] " ++ padR 40 msg
        ++ strConcat (lc.order.map (renderTag lc.tags)) ++ " uuid=" ++ gu
    ∧ ((TagMap.keys lc.tags).Nodup →
        ("instance_id" ∉ TagMap.keys lc.tags →
          jfind (ToJSON gu lc) "instance_id" = some (.scalar (.str gu)))
        ∧ ∀ k vs, TagMap.find lc.tags k = some vs →
            jfind (ToJSON gu lc) k = some (collapse vs)) := by
  constructor
  · show (lc.order.foldl (fun s k => s ++ renderTag lc.tags k)
        ("[" ++ padR 6 lvl ++ "] " ++ padR 40 msg)) ++ " uuid=" ++ gu = _
    rw [foldl_renderTag]
  · intro hnd
    exact ⟨fun hni => jfind_ToJSON_instance gu lc hni,
           fun k vs h => jfind_ToJSON gu lc k vs hnd h⟩

/-- Claim C9 witness: the amended payload facts applied at a concrete
one-tag context. -/
theorem claim9_witness :
    jfind (ToJSON "u" { base := .background, tags := [("k", [Value.str "v"])], order := ["k"] })
        "instance_id" = some (.scalar (.str "u"))
    ∧ jfind (ToJSON "u" { base := .background, tags := [("k", [Value.str "v"])], order := ["k"] })
        "k" = some (collapse [Value.str "v"]) :=
  ⟨((claim9_console_and_payload "u"
      { base := .background, tags := [("k", [Value.str "v"])], order := ["k"] } "INFO" "m").2
      (by decide)).1 (by decide),
   ((claim9_console_and_payload "u"
      { base := .background, tags := [("k", [Value.str "v"])], order := ["k"] } "INFO" "m").2
      (by decide)).2 "k" [Value.str "v"] (by decide)⟩

/-- Claim C10.  `ConsoleSink.Log` returns nil on every input: the
always-present backup sink can never itself fail, so it never triggers
the sink-failure reporting path. -/
theorem claim10_console_never_fails (gu : String) (ctx : Ctx) (lvl msg : String) :
    (ConsoleLog gu ctx lvl msg).2 = none := by
  cases ctx <;> rfl

end Ctxlog

